import Mathlib

set_option maxHeartbeats 1000000
set_option maxRecDepth 4096

/-! Shallow embedding of src/app3.py from the Resume-Builder repository.

The embedded functions are: sanitize_text (lines 108-126),
parse_resume_sections (lines 128-150), the two-column rendering of
create_pdf (lines 152-196, modelled as an event trace plus a cursor
simulation with the multi_cell height abstracted as a function
parameter), is_valid_email (lines 236-239) and the send-email button
handler (lines 333-346).  Python strings are modelled as Lean String,
with cased-ness of characters modelled on the ASCII range (all inputs
the program feeds to these checks after sanitization are ASCII). -/

/-- Whitespace test used by Python str.strip with no argument:
ASCII whitespace plus the common Unicode whitespace code points. -/
def pyIsSpace (c : Char) : Bool :=
  c = ' ' || c = '\t' || c = '\n' || c = '\x0b' || c = '\x0c' || c = '\r' ||
  c = '\x1c' || c = '\x1d' || c = '\x1e' || c = '\x1f' || c = '\x85' ||
  c = '\xa0' || c = ' ' || (0x2000 ≤ c.toNat && c.toNat ≤ 0x200a) ||
  c = ' ' || c = ' ' || c = ' ' || c = ' ' || c = '　'

/-- Python str.strip(): drop leading and trailing whitespace. -/
def pyStrip (s : String) : String :=
  ⟨((s.toList.dropWhile pyIsSpace).reverse.dropWhile pyIsSpace).reverse⟩

/-- A character is cased (ASCII model): an upper or lower case letter. -/
def isCased (c : Char) : Bool :=
  c.isUpper || c.isLower

/-- Python str.isupper(): at least one cased character and every cased
character is upper case. -/
def pyIsUpper (s : String) : Bool :=
  s.toList.any isCased && s.toList.all (fun c => !(isCased c) || c.isUpper)

/-- Python s.endswith(c) for a one-character suffix. -/
def pyEndsColon (s : String) : Bool :=
  match s.toList.getLast? with
  | some c => c == ':'
  | none => false

/-- Python line.rstrip(c) for the colon: drop every trailing colon. -/
def pyRstripColon (s : String) : String :=
  ⟨(s.toList.reverse.dropWhile (fun c => c == ':')).reverse⟩

/-- Header test of parse_resume_sections, app3.py line 139:
line.isupper() or line.endswith(colon). -/
def isHeader (line : String) : Bool :=
  pyIsUpper line || pyEndsColon line

/-- Python s.split(sep) for a one-character separator: split at every
occurrence, keeping empty chunks. -/
def splitOnChar (sep : Char) : List Char → List (List Char)
  | [] => [[]]
  | c :: cs =>
    match splitOnChar sep cs with
    | [] => [[]]
    | r :: rs => if c = sep then [] :: r :: rs else (c :: r) :: rs

/-- The line list of a text, app3.py line 134: resume_text.split(newline). -/
def linesOf (s : String) : List String :=
  (splitOnChar '\n' s.toList).map String.mk

/-- One Python str.replace(old, new) pass where old is a single
character: each occurrence of old becomes the character list new. -/
def replaceAllChar (old : Char) (new : List Char) : List Char → List Char
  | [] => []
  | c :: cs => (if c = old then new else [c]) ++ replaceAllChar old new cs

/-- The encode(ascii, errors=replace) step of sanitize_text: a character
outside the ASCII range becomes the question mark placeholder. -/
def asciiReplace (c : Char) : Char :=
  if c.toNat ≤ 127 then c else '?'

/-- sanitize_text from app3.py lines 108-126: the ten replacement-table
passes in dictionary order, then ASCII encoding with replacement. -/
def sanitize_text (s : String) : String :=
  let cs := s.toList
  let cs := replaceAllChar '–' ['-'] cs
  let cs := replaceAllChar '—' ['-'] cs
  let cs := replaceAllChar '‘' [Char.ofNat 39] cs
  let cs := replaceAllChar '’' [Char.ofNat 39] cs
  let cs := replaceAllChar '“' ['"'] cs
  let cs := replaceAllChar '”' ['"'] cs
  let cs := replaceAllChar '•' ['*'] cs
  let cs := replaceAllChar '…' ['.', '.', '.'] cs
  let cs := replaceAllChar ' ' ['\n'] cs
  let cs := replaceAllChar ' ' ['\n', '\n'] cs
  ⟨cs.map asciiReplace⟩

/-- Loop state of parse_resume_sections: the result map (a Python dict,
modelled as an association list in insertion order), the current section
name (empty string standing for the falsy states None and empty), and
the content collected for it so far. -/
structure ParseState where
  sections : List (String × List String)
  currentSection : String
  currentContent : List String
deriving DecidableEq

/-- Python dict assignment d[k] = v on an insertion-ordered dict:
update the existing entry in place, else append a new entry. -/
def dictInsert : List (String × List String) → String → List String →
    List (String × List String)
  | [], k, v => [(k, v)]
  | p :: rest, k, v => if p.1 = k then (k, v) :: rest else p :: dictInsert rest k v

/-- Loop body of parse_resume_sections, app3.py lines 134-145. -/
def parseLine (st : ParseState) (rawLine : String) : ParseState :=
  let line := pyStrip rawLine
  if line = "" then st
  else if isHeader line then
    ⟨if st.currentSection ≠ "" then
        dictInsert st.sections st.currentSection st.currentContent
      else st.sections,
     pyRstripColon line, []⟩
  else ⟨st.sections, st.currentSection, st.currentContent ++ [line]⟩

/-- Final flush after the loop, app3.py lines 147-148. -/
def finalizeSections (st : ParseState) : List (String × List String) :=
  if st.currentSection ≠ "" then
    dictInsert st.sections st.currentSection st.currentContent
  else st.sections

/-- parse_resume_sections from app3.py lines 128-150. -/
def parse_resume_sections (resume_text : String) : List (String × List String) :=
  finalizeSections ((linesOf resume_text).foldl parseLine ⟨[], "", []⟩)

/-- Classification of one raw line by the parser loop: skipped when
blank, a header with its colon-stripped name, or a content line. -/
inductive Item where
  | header (name : String)
  | content (line : String)
deriving DecidableEq

/-- What the parser loop does with one raw line, as a classification. -/
def classify (rawLine : String) : Option Item :=
  let line := pyStrip rawLine
  if line = "" then none
  else if isHeader line then some (.header (pyRstripColon line))
  else some (.content line)

/-- The parser loop body expressed on classified items. -/
def stepItem (st : ParseState) : Item → ParseState
  | .header n =>
    ⟨if st.currentSection ≠ "" then
        dictInsert st.sections st.currentSection st.currentContent
      else st.sections,
     n, []⟩
  | .content s => ⟨st.sections, st.currentSection, st.currentContent ++ [s]⟩

/-- The classified items of a text. -/
def itemsOf (text : String) : List Item :=
  (linesOf text).filterMap classify

/-- Run of the parser over classified items from a given state. -/
def runItems (st : ParseState) (items : List Item) : List (String × List String) :=
  finalizeSections (items.foldl stepItem st)

/-- Lookup in the association-list dict, mirroring Python dict access. -/
def alookup (k : String) : List (String × List String) → Option (List String)
  | [] => none
  | p :: rest => if p.1 = k then some p.2 else alookup k rest

/-- Key list of the dict, in insertion order. -/
def keysOf (m : List (String × List String)) : List String :=
  m.map Prod.fst

/-- Append the members of a list to a seen-list, keeping only first
occurrences: the insertion-order key behaviour of a Python dict. -/
def dedupAppend (seen : List String) (l : List String) : List String :=
  l.foldl (fun acc n => if n ∈ acc then acc else acc ++ [n]) seen

/-- Names of the header items whose colon-stripped name is nonempty;
an empty name is falsy in Python and is never stored by the parser. -/
def headerNamesNE (items : List Item) : List String :=
  items.filterMap fun it =>
    match it with
    | .header n => if n = "" then none else some n
    | .content _ => none

/-- The pending key contributed by a current-section value. -/
def pendingOf (cur : String) : List String :=
  if cur = "" then [] else [cur]

/-- Leading content lines of an item list, up to the first header:
the content a freshly opened section would collect. -/
def takeContent : List Item → List String
  | .content s :: rest => s :: takeContent rest
  | _ => []

/-- Specification-side description of last-occurrence-wins: the content
following the last header item named k, or none when k never heads. -/
def contentAfterLast (k : String) : List Item → Option (List String)
  | [] => none
  | .header n :: rest =>
    match contentAfterLast k rest with
    | some v => some v
    | none => if n = k then some (takeContent rest) else none
  | .content _ :: rest => contentAfterLast k rest

/-- Occurrence count of a string in a string list. -/
def occS (s : String) (l : List String) : Nat :=
  (l.map fun t => if t = s then 1 else 0).sum

/-- Total occurrence count of a content string across every section
list of the dict. -/
def mapSum (s : String) (m : List (String × List String)) : Nat :=
  (m.map fun p => occS s p.2).sum

/-- Occurrence count contributed by one item to a content string. -/
def occC (s : String) : Item → Nat
  | .content t => if t = s then 1 else 0
  | .header _ => 0

/-- Occurrence count of a content string among the items. -/
def contentCount (s : String) (items : List Item) : Nat :=
  (items.map (occC s)).sum

/-- Left margin of the PDF page in mm, app3.py line 58. -/
def margin : Nat := 10

/-- Width of the left column in mm, app3.py line 56. -/
def left_column_width : Nat := 65

/-- Width of the right column in mm, app3.py line 57. -/
def right_column_width : Nat := 125

/-- The two columns of the layout. -/
inductive Col where
  | left
  | right
deriving DecidableEq

/-- Horizontal start of a column: set_xy calls at lines 77, 79, 92, 101. -/
def colX : Col → Nat
  | .left => margin
  | .right => margin + left_column_width + 10

/-- multi_cell width used for content in a column, lines 96 and 105. -/
def colW : Col → Nat
  | .left => left_column_width
  | .right => right_column_width

/-- One rendering event of create_pdf: which column was written, at
which x position, with which multi_cell width (0 for the full-width
title cell), whether it is a section title, for which section of the
parsed map, and the text handed to the FPDF primitive. -/
structure PdfEv where
  col : Col
  x : Nat
  w : Nat
  isTitle : Bool
  sec : String
  text : String
deriving DecidableEq

/-- Python str.upper(), ASCII model, used on section titles (line 82). -/
def pyUpper (s : String) : String :=
  ⟨s.toList.map Char.toUpper⟩

/-- Text handed to multi_cell for one parsed content line, from
app3.py lines 176-179 together with lines 94-95: when the stripped line
starts with the bullet glyph, the glyph is dropped, the remainder is
stripped, and the normalized bullet marker is prepended. -/
def renderedContent (content : String) : String :=
  if (pyStrip content).toList.head? == some '•' then
    "• " ++ pyStrip ⟨(pyStrip content).toList.drop 1⟩
  else content

/-- Title event of add_section_title, app3.py lines 73-88. -/
def titleEv (c : Col) (n : String) : PdfEv :=
  ⟨c, colX c, 0, true, n, pyUpper n⟩

/-- Content event of add_content_left and add_content_right. -/
def contentEv (c : Col) (n : String) (content : String) : PdfEv :=
  ⟨c, colX c, colW c, false, n, renderedContent content⟩

/-- Events emitted for one present section: its title then its lines. -/
def secEvents (c : Col) (n : String) (ls : List String) : List PdfEv :=
  titleEv c n :: ls.map (contentEv c n)

/-- One column pass of create_pdf, app3.py lines 172-180 and 186-194:
walk the fixed name list, rendering each name present in the map. -/
def columnPass (c : Col) (names : List String)
    (m : List (String × List String)) : List PdfEv :=
  match names with
  | [] => []
  | n :: rest =>
    (match alookup n m with
     | some ls => secEvents c n ls
     | none => []) ++ columnPass c rest m

/-- Fixed left-column section order, app3.py line 168. -/
def left_sections : List String :=
  ["EDUCATION", "SKILLS", "TECHNICAL SKILLS", "COURSEWORK", "ACHIEVEMENTS", "LINKS"]

/-- Fixed right-column section order, app3.py line 169. -/
def right_sections : List String :=
  ["EXPERIENCE", "WORK EXPERIENCE", "PROJECTS", "PROFESSIONAL EXPERIENCE"]

/-- Section rendering events of create_pdf: left pass then right pass. -/
def createPdfEvents (m : List (String × List String)) : List PdfEv :=
  columnPass .left left_sections m ++ columnPass .right right_sections m

/-- Number of title events for a given section name in a trace. -/
def countTitle (n : String) (evs : List PdfEv) : Nat :=
  evs.countP fun e => e.isTitle && e.sec == n

/-- The two vertical cursors of ResumePDF, app3.py lines 60-61. -/
structure CursorState where
  yLeft : Nat
  yRight : Nat
deriving DecidableEq

/-- Vertical advance of one left-column section: the title cell of
height 6 plus the ln(2) gap, one multi_cell advance per content line
(height given by the abstracted FPDF wrap function h), and the fixed
inter-section gap of 5 from app3.py line 180. -/
def renderSectionLeftY (h : String → Nat) (ls : List String) (y : Nat) : Nat :=
  (ls.foldl (fun y c => y + h (renderedContent c)) (y + 8)) + 5

/-- Cursor effect of the left-column pass, app3.py lines 172-180: only
the left cursor moves; the right cursor is untouched. -/
def runLeftPass (h : String → Nat) (m : List (String × List String))
    (st : CursorState) : CursorState :=
  left_sections.foldl
    (fun st n =>
      match alookup n m with
      | some ls => ⟨renderSectionLeftY h ls st.yLeft, st.yRight⟩
      | none => st)
    st

/-- The unconditional right-cursor reset of app3.py line 183:
pdf.current_y_right = pdf.margin + 25. -/
def resetRightY (st : CursorState) : CursorState :=
  ⟨st.yLeft, margin + 25⟩

/-- create_pdf from app3.py lines 152-196, as a partial-correctness
model: sanitize, parse, extract the contact block (lines 161-165, where
unpacking the split of a contact line holding two or more pipe
characters raises ValueError, and indexing an empty contact section
raises IndexError), then emit the name block data and the two column
passes.  An error return models an exception raised before any page
content is rendered. -/
def create_pdf (resume_text : String) :
    Except String ((String × String × String) × List PdfEv) :=
  let t := sanitize_text resume_text
  let sections := parse_resume_sections t
  let ci := (alookup "CONTACT INFORMATION" sections).getD
    ["Name", "email@example.com | Phone"]
  match ci with
  | [] => .error "IndexError: list index out of range"
  | name :: rest =>
    let contact := rest.headD ""
    let split2 : Except String (String × String) :=
      if contact.toList.contains '|' then
        match (splitOnChar '|' contact.toList).map String.mk with
        | [e, p] => .ok (e, p)
        | _ => .error "ValueError: unpack mismatch"
      else .ok (contact, "")
    match split2 with
    | .error msg => .error msg
    | .ok (e, p) => .ok ((name, pyStrip e, pyStrip p), createPdfEvents sections)

/-- Word character of the email pattern, ASCII model of backslash-w. -/
def isWordChar (c : Char) : Bool :=
  c.isAlphanum || c = '_'

/-- Character class of the local part and domain of the email pattern:
word characters, the dot and the hyphen. -/
def isClassChar (c : Char) : Bool :=
  isWordChar c || c = '.' || c = '-'

/-- Match of the pattern suffix after the at sign: one or more class
characters, a dot, then one or more word characters, to the end. -/
def emailTail (t : List Char) : Bool :=
  (List.range t.length).any fun i =>
    decide (t.take i ≠ []) && (t.take i).all isClassChar &&
    (match t.drop i with
     | '.' :: c => decide (c ≠ []) && c.all isWordChar
     | _ => false)

/-- Full match of the email pattern: one or more class characters, the
at sign, then the tail pattern. -/
def emailMatch (cs : List Char) : Bool :=
  (List.range cs.length).any fun j =>
    decide (cs.take j ≠ []) && (cs.take j).all isClassChar &&
    (match cs.drop j with
     | '@' :: t => emailTail t
     | _ => false)

/-- is_valid_email from app3.py lines 236-239.  The dollar anchor of
the Python pattern also matches just before one trailing newline, so a
match on the string minus one trailing newline is accepted too. -/
def is_valid_email (email : String) : Bool :=
  let cs := email.toList
  emailMatch cs ||
    (match cs.getLast? with
     | some c => c == '\n' && emailMatch cs.dropLast
     | none => false)

/-- Outcome of the send-email button handler. -/
inductive EmailOutcome where
  | warnEmptyReceiver
  | warnInvalidEmail
  | sendAttempt (receiver : String)
deriving DecidableEq

/-- The send-email button handler, app3.py lines 333-346: warn on a
blank receiver, warn on an invalid address, otherwise attempt the
transport call send_email_with_attachment. -/
def email_button_handler (receiver : String) : EmailOutcome :=
  if pyStrip receiver = "" then .warnEmptyReceiver
  else if !(is_valid_email receiver) then .warnInvalidEmail
  else .sendAttempt receiver

/-! Basic facts about the String wrappers. -/

theorem toList_mk (l : List Char) : (String.mk l).toList = l := rfl

theorem mk_toList (s : String) : String.mk s.toList = s := rfl

theorem toList_append (s t : String) : (s ++ t).toList = s.toList ++ t.toList := rfl

/-! Sanitization lemmas. -/

theorem replaceAllChar_id (old : Char) (new : List Char) :
    ∀ cs : List Char, (∀ c ∈ cs, c ≠ old) → replaceAllChar old new cs = cs := by
  intro cs
  induction cs with
  | nil => intro _; rfl
  | cons c cs ih =>
    intro h
    have hc : c ≠ old := h c (List.mem_cons_self c cs)
    simp only [replaceAllChar, if_neg hc]
    rw [ih (fun d hd => h d (List.mem_cons_of_mem c hd))]
    rfl

theorem asciiReplace_le (c : Char) : (asciiReplace c).toNat ≤ 127 := by
  unfold asciiReplace
  split
  · assumption
  · decide

theorem map_asciiReplace_id :
    ∀ cs : List Char, (∀ c ∈ cs, c.toNat ≤ 127) → cs.map asciiReplace = cs := by
  intro cs
  induction cs with
  | nil => intro _; rfl
  | cons c cs ih =>
    intro h
    have hc : asciiReplace c = c := by
      unfold asciiReplace
      exact if_pos (h c (List.mem_cons_self c cs))
    simp only [List.map_cons, hc]
    rw [ih (fun d hd => h d (List.mem_cons_of_mem c hd))]

theorem replaceAll_ascii_id (old : Char) (new : List Char) (cs : List Char)
    (hcs : ∀ c ∈ cs, c.toNat ≤ 127) (hold : 127 < old.toNat) :
    replaceAllChar old new cs = cs := by
  refine replaceAllChar_id old new cs (fun c hc he => ?_)
  have := hcs c hc
  rw [he] at this
  omega

theorem sanitize_ascii (s : String) :
    ∀ c ∈ (sanitize_text s).toList, c.toNat ≤ 127 := by
  intro c hc
  unfold sanitize_text at hc
  simp only [toList_mk] at hc
  rcases List.mem_map.mp hc with ⟨a, _, ha⟩
  rw [← ha]
  exact asciiReplace_le a

theorem sanitize_of_ascii (t : String) (ht : ∀ c ∈ t.toList, c.toNat ≤ 127) :
    sanitize_text t = t := by
  simp only [sanitize_text]
  rw [replaceAll_ascii_id '–' _ _ ht (by decide)]
  rw [replaceAll_ascii_id '—' _ _ ht (by decide)]
  rw [replaceAll_ascii_id '‘' _ _ ht (by decide)]
  rw [replaceAll_ascii_id '’' _ _ ht (by decide)]
  rw [replaceAll_ascii_id '“' _ _ ht (by decide)]
  rw [replaceAll_ascii_id '”' _ _ ht (by decide)]
  rw [replaceAll_ascii_id '•' _ _ ht (by decide)]
  rw [replaceAll_ascii_id '…' _ _ ht (by decide)]
  rw [replaceAll_ascii_id ' ' _ _ ht (by decide)]
  rw [replaceAll_ascii_id ' ' _ _ ht (by decide)]
  rw [map_asciiReplace_id _ ht]
  exact mk_toList t

/-- C5: sanitize_text is idempotent, and its output is ASCII-only, so
every character not representable in the output encoding was replaced
by the question-mark placeholder rather than causing a failure; the
function is total by construction. -/
theorem C5_sanitize_idempotent (s : String) :
    sanitize_text (sanitize_text s) = sanitize_text s ∧
    (sanitize_text s).toList.all (fun c => c.toNat ≤ 127) = true := by
  constructor
  · exact sanitize_of_ascii (sanitize_text s) (sanitize_ascii s)
  · exact List.all_eq_true.mpr (fun c hc => decide_eq_true (sanitize_ascii s c hc))

/-- C1: the rendering step of create_pdf maps the parsed content line
consisting of the bullet glyph, a space and the words Built X to the
glyph-stripped remainder with exactly one normalized bullet marker
prepended, so the rendered line carries a single bullet glyph; note
that sanitize_text, which create_pdf applies before parsing, maps the
bullet glyph to a star, so this quantifies over the text reaching the
bullet check of lines 176-179. -/
theorem C1_bullet_not_duplicated :
    renderedContent "• Built X" = "• " ++ "Built X" ∧
    ((renderedContent "• Built X").toList.count '•') = 1 ∧
    sanitize_text "• Built X" = "* Built X" := by
  refine ⟨by decide, by decide, by decide⟩

/-! Bridging the raw-line loop to the classified-item loop. -/

theorem parseLine_classify (st : ParseState) (raw : String) :
    parseLine st raw =
      match classify raw with
      | none => st
      | some it => stepItem st it := by
  simp only [parseLine, classify]
  by_cases h1 : pyStrip raw = ""
  · simp [h1]
  · by_cases h2 : isHeader (pyStrip raw) = true
    · simp [h1, h2, stepItem]
    · simp [h1, h2, stepItem]

theorem foldl_parseLine (lines : List String) :
    ∀ st : ParseState,
      lines.foldl parseLine st = (lines.filterMap classify).foldl stepItem st := by
  induction lines with
  | nil => intro _; rfl
  | cons l rest ih =>
    intro st
    rw [List.foldl_cons, parseLine_classify st l, List.filterMap_cons]
    cases h : classify l with
    | none => exact ih st
    | some it => exact ih (stepItem st it)

theorem parse_eq_runItems (text : String) :
    parse_resume_sections text = runItems ⟨[], "", []⟩ (itemsOf text) := by
  unfold parse_resume_sections runItems itemsOf
  rw [foldl_parseLine]

theorem runItems_cons (st : ParseState) (it : Item) (rest : List Item) :
    runItems st (it :: rest) = runItems (stepItem st it) rest := rfl

/-! Association-list dict lemmas. -/

theorem keysOf_dictInsert (m : List (String × List String)) (k : String)
    (v : List String) :
    keysOf (dictInsert m k v) =
      if k ∈ keysOf m then keysOf m else keysOf m ++ [k] := by
  induction m with
  | nil => simp [dictInsert, keysOf]
  | cons p rest ih =>
    have hkc : keysOf (p :: rest) = p.1 :: keysOf rest := rfl
    by_cases hp : p.1 = k
    · rw [show dictInsert (p :: rest) k v = (k, v) :: rest from by
        simp [dictInsert, hp]]
      rw [show keysOf ((k, v) :: rest) = k :: keysOf rest from rfl, hkc, hp]
      simp [List.mem_cons]
    · rw [show dictInsert (p :: rest) k v = p :: dictInsert rest k v from by
        simp [dictInsert, hp]]
      rw [show keysOf (p :: dictInsert rest k v) = p.1 :: keysOf (dictInsert rest k v)
        from rfl, ih, hkc]
      by_cases hk : k ∈ keysOf rest
      · simp [hk, List.mem_cons]
      · have hkp : k ≠ p.1 := fun h => hp h.symm
        simp [hk, List.mem_cons, hkp]

theorem alookup_dictInsert_self (m : List (String × List String)) (k : String)
    (v : List String) :
    alookup k (dictInsert m k v) = some v := by
  induction m with
  | nil => simp [dictInsert, alookup]
  | cons p rest ih =>
    by_cases hp : p.1 = k
    · simp [dictInsert, hp, alookup]
    · simp [dictInsert, hp, alookup, ih]

theorem alookup_dictInsert_ne (m : List (String × List String)) (k k' : String)
    (v : List String) (h : k' ≠ k) :
    alookup k (dictInsert m k' v) = alookup k m := by
  induction m with
  | nil => simp [dictInsert, alookup, h]
  | cons p rest ih =>
    by_cases hp : p.1 = k'
    · simp [dictInsert, hp, alookup, h]
    · simp [dictInsert, hp, alookup, ih]

theorem occS_append (s : String) (a b : List String) :
    occS s (a ++ b) = occS s a + occS s b := by
  simp [occS]

theorem mapSum_dictInsert_le (m : List (String × List String)) (k : String)
    (v : List String) (s : String) :
    mapSum s (dictInsert m k v) ≤ mapSum s m + occS s v := by
  induction m with
  | nil => simp [dictInsert, mapSum]
  | cons p rest ih =>
    by_cases hp : p.1 = k
    · simp only [dictInsert, if_pos hp, mapSum, List.map_cons, List.sum_cons]
      simp only [mapSum] at *
      omega
    · simp only [dictInsert, if_neg hp, mapSum, List.map_cons, List.sum_cons]
      simp only [mapSum] at ih
      omega

/-! Key-order lemma: the dict keys are the header names in first-seen
order, with empty names dropped. -/

theorem headerNamesNE_cons_header (n : String) (rest : List Item) :
    headerNamesNE (Item.header n :: rest) = pendingOf n ++ headerNamesNE rest := by
  by_cases h : n = "" <;> simp [headerNamesNE, pendingOf, List.filterMap_cons, h]

theorem headerNamesNE_cons_content (s : String) (rest : List Item) :
    headerNamesNE (Item.content s :: rest) = headerNamesNE rest := by
  simp [headerNamesNE, List.filterMap_cons]

theorem dedupAppend_nil (A : List String) : dedupAppend A [] = A := rfl

theorem dedupAppend_append (A x y : List String) :
    dedupAppend A (x ++ y) = dedupAppend (dedupAppend A x) y := by
  simp [dedupAppend, List.foldl_append]

theorem dedupAppend_single (A : List String) (n : String) :
    dedupAppend A [n] = if n ∈ A then A else A ++ [n] := rfl

theorem keysOf_finalizeSections (st : ParseState) :
    keysOf (finalizeSections st) =
      dedupAppend (keysOf st.sections) (pendingOf st.currentSection) := by
  unfold finalizeSections pendingOf
  by_cases h : st.currentSection = ""
  · simp [h, dedupAppend_nil]
  · simp [h, keysOf_dictInsert, dedupAppend_single]

theorem keys_runItems (items : List Item) :
    ∀ st : ParseState,
      keysOf (runItems st items) =
        dedupAppend (keysOf st.sections)
          (pendingOf st.currentSection ++ headerNamesNE items) := by
  induction items with
  | nil =>
    intro st
    show keysOf (finalizeSections st) = _
    rw [keysOf_finalizeSections]
    simp [headerNamesNE]
  | cons it rest ih =>
    intro st
    cases it with
    | header n =>
      rw [runItems_cons, ih, headerNamesNE_cons_header]
      have hsec : (stepItem st (Item.header n)).sections = finalizeSections st := rfl
      have hcur : (stepItem st (Item.header n)).currentSection = n := rfl
      rw [hsec, hcur, keysOf_finalizeSections, ← dedupAppend_append]
    | content s =>
      rw [runItems_cons, ih, headerNamesNE_cons_content]
      rfl

/-! Nodup of the key list. -/

theorem nodup_append_single (A : List String) (n : String) (hn : n ∉ A)
    (hA : A.Nodup) : (A ++ [n]).Nodup := by
  rw [List.nodup_append]
  exact ⟨hA, List.nodup_singleton n,
    fun a haA han => hn (List.mem_singleton.mp han ▸ haA)⟩

theorem dedupAppend_nodup (l : List String) :
    ∀ A : List String, A.Nodup → (dedupAppend A l).Nodup := by
  induction l with
  | nil => intro A h; exact h
  | cons n l ih =>
    intro A hA
    rw [show dedupAppend A (n :: l) = dedupAppend (if n ∈ A then A else A ++ [n]) l
      from rfl]
    by_cases hn : n ∈ A
    · rw [if_pos hn]; exact ih A hA
    · rw [if_neg hn]; exact ih _ (nodup_append_single A n hn hA)

/-! Last-occurrence-wins lookup lemma. -/

theorem alookup_finalizeSections (st : ParseState) (k : String) (hk : k ≠ "") :
    alookup k (finalizeSections st) =
      if st.currentSection = k then some st.currentContent
      else alookup k st.sections := by
  unfold finalizeSections
  by_cases hc : st.currentSection = k
  · rw [if_pos hc]
    have hne : st.currentSection ≠ "" := by rw [hc]; exact hk
    rw [if_pos hne, hc]
    exact alookup_dictInsert_self _ _ _
  · rw [if_neg hc]
    by_cases hne : st.currentSection = ""
    · simp [hne]
    · rw [if_pos hne]
      exact alookup_dictInsert_ne _ _ _ _ hc

theorem lookup_runItems (items : List Item) :
    ∀ (st : ParseState) (k : String), k ≠ "" →
      alookup k (runItems st items) =
        match contentAfterLast k items with
        | some v => some v
        | none =>
          if st.currentSection = k then
            some (st.currentContent ++ takeContent items)
          else alookup k st.sections := by
  induction items with
  | nil =>
    intro st k hk
    show alookup k (finalizeSections st) = _
    rw [alookup_finalizeSections st k hk]
    simp [contentAfterLast, takeContent]
  | cons it rest ih =>
    intro st k hk
    cases it with
    | header n =>
      rw [runItems_cons, ih _ k hk]
      have hsec : (stepItem st (Item.header n)).sections = finalizeSections st := rfl
      have hcur : (stepItem st (Item.header n)).currentSection = n := rfl
      have hcc : (stepItem st (Item.header n)).currentContent = [] := rfl
      rw [hsec, hcur, hcc]
      cases hr : contentAfterLast k rest with
      | some v =>
        simp only [contentAfterLast, hr]
      | none =>
        simp only [contentAfterLast, hr]
        by_cases hn : n = k
        · simp only [if_pos hn, List.nil_append]
        · simp only [if_neg hn]
          rw [alookup_finalizeSections st k hk]
          have ht : takeContent (Item.header n :: rest) = [] := rfl
          rw [ht]
          simp
    | content s =>
      rw [runItems_cons, ih _ k hk]
      have hsec : (stepItem st (Item.content s)).sections = st.sections := rfl
      have hcur : (stepItem st (Item.content s)).currentSection =
        st.currentSection := rfl
      have hcc : (stepItem st (Item.content s)).currentContent =
        st.currentContent ++ [s] := rfl
      rw [hsec, hcur, hcc]
      have hca : contentAfterLast k (Item.content s :: rest) =
        contentAfterLast k rest := rfl
      rw [hca]
      cases hr : contentAfterLast k rest with
      | some v => rfl
      | none =>
        have ht : takeContent (Item.content s :: rest) = s :: takeContent rest := rfl
        rw [ht]
        by_cases hc : st.currentSection = k
        · simp [hc]
        · simp [hc]

/-! Conservation of content lines. -/

theorem mapSum_finalizeSections_le (st : ParseState) (s : String) :
    mapSum s (finalizeSections st) ≤
      mapSum s st.sections + occS s st.currentContent := by
  unfold finalizeSections
  by_cases h : st.currentSection ≠ ""
  · rw [if_pos h]; exact mapSum_dictInsert_le _ _ _ _
  · rw [if_neg h]; omega

theorem count_runItems (items : List Item) :
    ∀ (st : ParseState) (s : String),
      mapSum s (runItems st items) ≤
        mapSum s st.sections + occS s st.currentContent + contentCount s items := by
  induction items with
  | nil =>
    intro st s
    have h := mapSum_finalizeSections_le st s
    have hz : contentCount s [] = 0 := rfl
    show mapSum s (finalizeSections st) ≤ _
    omega
  | cons it rest ih =>
    intro st s
    rw [runItems_cons]
    cases it with
    | header n =>
      have h1 := ih (stepItem st (Item.header n)) s
      have h2 : mapSum s (stepItem st (Item.header n)).sections ≤
          mapSum s st.sections + occS s st.currentContent :=
        mapSum_finalizeSections_le st s
      have h3 : occS s (stepItem st (Item.header n)).currentContent = 0 := rfl
      have h4 : contentCount s (Item.header n :: rest) = contentCount s rest := by
        simp [contentCount, occC]
      rw [h3] at h1
      rw [h4]
      omega
    | content t =>
      have h1 := ih (stepItem st (Item.content t)) s
      have h2 : (stepItem st (Item.content t)).sections = st.sections := rfl
      have h3 : occS s (stepItem st (Item.content t)).currentContent =
          occS s st.currentContent + occS s [t] := by
        rw [show (stepItem st (Item.content t)).currentContent =
          st.currentContent ++ [t] from rfl]
        exact occS_append s _ _
      have h4 : contentCount s (Item.content t :: rest) =
          occS s [t] + contentCount s rest := by
        simp [contentCount, occC, occS]
      rw [h2, h3] at h1
      rw [h4]
      omega

/-- C3: in the map returned by parse_resume_sections, section names are
unique, keys appear in first-seen order of the (nonempty,
colon-stripped) header names, the entry for each name equals the
content that followed its last occurrence as a header (last occurrence
wins), and each input content line occurrence lands in at most one
section list: the total number of occurrences of any string across all
content lists is at most its number of occurrences among the parsed
content items. -/
theorem C3_parse_invariants (text : String) :
    (keysOf (parse_resume_sections text)).Nodup ∧
    keysOf (parse_resume_sections text) =
      dedupAppend [] (headerNamesNE (itemsOf text)) ∧
    (∀ k, k ≠ "" →
      alookup k (parse_resume_sections text) = contentAfterLast k (itemsOf text)) ∧
    (∀ s, mapSum s (parse_resume_sections text) ≤ contentCount s (itemsOf text)) := by
  have hkeys : keysOf (parse_resume_sections text) =
      dedupAppend [] (headerNamesNE (itemsOf text)) := by
    rw [parse_eq_runItems, keys_runItems]
    rfl
  refine ⟨?_, hkeys, ?_, ?_⟩
  · rw [hkeys]
    exact dedupAppend_nodup _ [] List.nodup_nil
  · intro k hk
    rw [parse_eq_runItems, lookup_runItems _ _ k hk]
    cases hr : contentAfterLast k (itemsOf text) with
    | some v => rfl
    | none =>
      have hne : ¬(("" : String) = k) := fun h => hk h.symm
      simp only [if_neg hne]
      rfl
  · intro s
    have h : mapSum s (runItems ⟨[], "", []⟩ (itemsOf text)) ≤
        0 + 0 + contentCount s (itemsOf text) :=
      count_runItems (itemsOf text) ⟨[], "", []⟩ s
    rw [← parse_eq_runItems] at h
    omega

theorem C3_parse_invariants_witness :
    alookup "A" (parse_resume_sections "A:\nx") =
      contentAfterLast "A" (itemsOf "A:\nx") ∧
    (keysOf (parse_resume_sections "A:\nx")).Nodup :=
  ⟨(C3_parse_invariants "A:\nx").2.2.1 "A" (by decide),
   (C3_parse_invariants "A:\nx").1⟩

/-! No-header inputs. -/

theorem no_header_run (items : List Item) :
    (∀ it ∈ items, ∀ n, it ≠ Item.header n) →
    ∀ (secs : List (String × List String)) (cc : List String),
      runItems ⟨secs, "", cc⟩ items = secs := by
  induction items with
  | nil =>
    intro _ secs cc
    show finalizeSections _ = secs
    simp [finalizeSections]
  | cons it rest ih =>
    intro hni secs cc
    cases it with
    | header n => exact absurd rfl (hni _ (List.mem_cons_self _ _) n)
    | content s =>
      rw [runItems_cons]
      exact ih (fun it hit n => hni it (List.mem_cons_of_mem _ hit) n) secs (cc ++ [s])

/-- C4: when no line of the input is a header (no nonblank line is
entirely upper case or ends with a colon after trimming),
parse_resume_sections returns the empty map; in particular content
lines before any header contribute nothing. -/
theorem C4_no_headers (text : String)
    (h : ∀ l ∈ linesOf text, isHeader (pyStrip l) = false) :
    parse_resume_sections text = [] := by
  rw [parse_eq_runItems]
  refine no_header_run (itemsOf text) ?_ [] []
  intro it hit n hn
  unfold itemsOf at hit
  rcases List.mem_filterMap.mp hit with ⟨l, hl, hcl⟩
  rw [hn] at hcl
  unfold classify at hcl
  by_cases hb : pyStrip l = ""
  · simp [hb] at hcl
  · by_cases hhd : isHeader (pyStrip l) = true
    · rw [h l hl] at hhd
      exact Bool.false_ne_true hhd
    · simp [hb, hhd] at hcl

theorem C4_no_headers_witness :
    parse_resume_sections "hello there\nworld peace" = [] :=
  C4_no_headers _ (by decide)

/-- C8: parse_resume_sections is total (a function in this model; the
Python body only uses total string operations) and on degenerate input
whose every line trims to the empty string, among them the empty text
and whitespace-only text, it returns the empty map. -/
theorem C8_parse_degenerate (text : String)
    (h : ∀ l ∈ linesOf text, pyStrip l = "") :
    parse_resume_sections text = [] := by
  have hi : itemsOf text = [] := by
    unfold itemsOf
    refine List.filterMap_eq_nil_iff.mpr ?_
    intro l hl
    unfold classify
    simp [h l hl]
  rw [parse_eq_runItems, hi]
  decide

theorem C8_parse_degenerate_witness :
    parse_resume_sections "  \n\n\t" = [] :=
  C8_parse_degenerate _ (by decide)

/-! Computing the line split of the C2 example text. -/

theorem splitOnChar_ne_nil (sep : Char) (l : List Char) :
    splitOnChar sep l ≠ [] := by
  cases l with
  | nil => simp [splitOnChar]
  | cons c cs =>
    unfold splitOnChar
    cases h : splitOnChar sep cs with
    | nil => simp
    | cons r rs => by_cases hc : c = sep <;> simp [hc]

theorem splitOnChar_append (sep : Char) (a b : List Char) (h : sep ∉ a) :
    splitOnChar sep (a ++ sep :: b) = a :: splitOnChar sep b := by
  induction a with
  | nil =>
    simp only [List.nil_append]
    cases hs : splitOnChar sep b with
    | nil => exact absurd hs (splitOnChar_ne_nil sep b)
    | cons r rs =>
      rw [show splitOnChar sep (sep :: b) =
        (match splitOnChar sep b with
         | [] => [[]]
         | r :: rs => if sep = sep then [] :: r :: rs else (sep :: r) :: rs)
        from rfl, hs]
      simp
  | cons c a ih =>
    have hc : c ≠ sep := fun hh => h (hh ▸ List.mem_cons_self c a)
    have ha : sep ∉ a := fun hh => h (List.mem_cons_of_mem c hh)
    simp only [List.cons_append]
    rw [show splitOnChar sep (c :: (a ++ sep :: b)) =
      (match splitOnChar sep (a ++ sep :: b) with
       | [] => [[]]
       | r :: rs => if c = sep then [] :: r :: rs else (c :: r) :: rs)
      from rfl]
    rw [ih ha]
    simp [hc]

theorem splitOnChar_no_sep (sep : Char) (a : List Char) (h : sep ∉ a) :
    splitOnChar sep a = [a] := by
  induction a with
  | nil => rfl
  | cons c a ih =>
    have hc : c ≠ sep := fun hh => h (hh ▸ List.mem_cons_self c a)
    have ha : sep ∉ a := fun hh => h (List.mem_cons_of_mem c hh)
    unfold splitOnChar
    rw [ih ha]
    simp [hc]

theorem linesOf_example (l1 l2 l3 : String)
    (h1 : '\n' ∉ l1.toList) (h2 : '\n' ∉ l2.toList) (h3 : '\n' ∉ l3.toList) :
    linesOf ("EDUCATION" ++ "\n" ++ l1 ++ "\n" ++ l2 ++ "\n" ++ "SKILLS:" ++
        "\n" ++ l3) =
      ["EDUCATION", l1, l2, "SKILLS:", l3] := by
  unfold linesOf
  have hnl : "\n".toList = ['\n'] := rfl
  have ht : ("EDUCATION" ++ "\n" ++ l1 ++ "\n" ++ l2 ++ "\n" ++ "SKILLS:" ++
      "\n" ++ l3).toList =
      "EDUCATION".toList ++ '\n' :: (l1.toList ++ '\n' :: (l2.toList ++ '\n' ::
        ("SKILLS:".toList ++ '\n' :: l3.toList))) := by
    simp only [toList_append, hnl]
    simp [List.append_assoc]
  rw [ht]
  rw [splitOnChar_append _ _ _ (by decide)]
  rw [splitOnChar_append _ _ _ h1]
  rw [splitOnChar_append _ _ _ h2]
  rw [splitOnChar_append _ _ _ (by decide)]
  rw [splitOnChar_no_sep _ _ h3]
  simp [mk_toList]

/-! Single parser steps on already-trimmed lines. -/

theorem parseLine_content (st : ParseState) (l : String)
    (hs : pyStrip l = l) (hne : l ≠ "") (hh : isHeader l = false) :
    parseLine st l =
      ⟨st.sections, st.currentSection, st.currentContent ++ [l]⟩ := by
  simp [parseLine, hs, hne, hh]

theorem parseLine_header (st : ParseState) (l : String)
    (hs : pyStrip l = l) (hne : l ≠ "") (hh : isHeader l = true) :
    parseLine st l =
      ⟨if st.currentSection ≠ "" then
          dictInsert st.sections st.currentSection st.currentContent
        else st.sections,
       pyRstripColon l, []⟩ := by
  simp [parseLine, hs, hne, hh]

/-- C2: a text of the header EDUCATION, two nonblank non-header single
lines, the header SKILLS with a colon, and one more nonblank non-header
single line parses to exactly the two-entry map with the colon stripped
from the second section name. -/
theorem C2_parse_education_skills (l1 l2 l3 : String)
    (h1s : pyStrip l1 = l1) (h1n : l1 ≠ "") (h1h : isHeader l1 = false)
    (h1c : '\n' ∉ l1.toList)
    (h2s : pyStrip l2 = l2) (h2n : l2 ≠ "") (h2h : isHeader l2 = false)
    (h2c : '\n' ∉ l2.toList)
    (h3s : pyStrip l3 = l3) (h3n : l3 ≠ "") (h3h : isHeader l3 = false)
    (h3c : '\n' ∉ l3.toList) :
    parse_resume_sections
        ("EDUCATION" ++ "\n" ++ l1 ++ "\n" ++ l2 ++ "\n" ++ "SKILLS:" ++
          "\n" ++ l3) =
      [("EDUCATION", [l1, l2]), ("SKILLS", [l3])] := by
  unfold parse_resume_sections
  rw [linesOf_example l1 l2 l3 h1c h2c h3c]
  have s0 : parseLine ⟨[], "", []⟩ "EDUCATION" = ⟨[], "EDUCATION", []⟩ := by decide
  have s1 : parseLine ⟨[], "EDUCATION", []⟩ l1 = ⟨[], "EDUCATION", [l1]⟩ := by
    rw [parseLine_content _ _ h1s h1n h1h]
    rfl
  have s2 : parseLine ⟨[], "EDUCATION", [l1]⟩ l2 = ⟨[], "EDUCATION", [l1, l2]⟩ := by
    rw [parseLine_content _ _ h2s h2n h2h]
    rfl
  have s3 : parseLine ⟨[], "EDUCATION", [l1, l2]⟩ "SKILLS:" =
      ⟨[("EDUCATION", [l1, l2])], "SKILLS", []⟩ := by
    rw [parseLine_header _ _ (by decide) (by decide) (by decide)]
    simp [dictInsert, show pyRstripColon "SKILLS:" = "SKILLS" from by decide,
      show ("EDUCATION" : String) ≠ "" from by decide]
  have s4 : parseLine ⟨[("EDUCATION", [l1, l2])], "SKILLS", []⟩ l3 =
      ⟨[("EDUCATION", [l1, l2])], "SKILLS", [l3]⟩ := by
    rw [parseLine_content _ _ h3s h3n h3h]
    rfl
  simp only [List.foldl_cons, List.foldl_nil, s0, s1, s2, s3, s4]
  unfold finalizeSections
  rw [if_pos (show ("SKILLS" : String) ≠ "" from by decide)]
  simp [dictInsert, show ("EDUCATION" : String) ≠ "SKILLS" from by decide]

theorem C2_parse_education_skills_witness :
    parse_resume_sections ("EDUCATION" ++ "\n" ++ "BSc Computer Science" ++
        "\n" ++ "GPA high" ++ "\n" ++ "SKILLS:" ++ "\n" ++ "Python and Lean") =
      [("EDUCATION", ["BSc Computer Science", "GPA high"]),
       ("SKILLS", ["Python and Lean"])] :=
  C2_parse_education_skills _ _ _ (by decide) (by decide) (by decide) (by decide)
    (by decide) (by decide) (by decide) (by decide) (by decide) (by decide)
    (by decide) (by decide)

/-! Column-assignment lemmas for create_pdf. -/

theorem alookup_isSome_mem (m : List (String × List String)) (k : String)
    (h : (alookup k m).isSome) : ∃ p ∈ m, p.1 = k := by
  induction m with
  | nil => simp [alookup] at h
  | cons p rest ih =>
    by_cases hp : p.1 = k
    · exact ⟨p, List.mem_cons_self _ _, hp⟩
    · rw [show alookup k (p :: rest) = alookup k rest from by simp [alookup, hp]] at h
      rcases ih h with ⟨q, hq, hqk⟩
      exact ⟨q, List.mem_cons_of_mem _ hq, hqk⟩

theorem mem_secEvents {e : PdfEv} {c : Col} {n : String} {ls : List String}
    (he : e ∈ secEvents c n ls) :
    e.col = c ∧ e.x = colX c ∧ (e.isTitle = false → e.w = colW c) ∧ e.sec = n := by
  unfold secEvents at he
  rcases List.mem_cons.mp he with rfl | hm
  · exact ⟨rfl, rfl, fun h => Bool.noConfusion (show true = false from h), rfl⟩
  · rcases List.mem_map.mp hm with ⟨a, _, rfl⟩
    exact ⟨rfl, rfl, fun _ => rfl, rfl⟩

theorem mem_columnPass {e : PdfEv} {c : Col} (names : List String)
    (m : List (String × List String)) (he : e ∈ columnPass c names m) :
    e.col = c ∧ e.x = colX c ∧ (e.isTitle = false → e.w = colW c) ∧
    e.sec ∈ names ∧ (alookup e.sec m).isSome := by
  induction names with
  | nil => simp [columnPass] at he
  | cons n rest ih =>
    rw [show columnPass c (n :: rest) m =
      (match alookup n m with
       | some ls => secEvents c n ls
       | none => []) ++ columnPass c rest m from rfl] at he
    rcases List.mem_append.mp he with h1 | h2
    · cases halk : alookup n m with
      | none => rw [halk] at h1; simp at h1
      | some ls =>
        rw [halk] at h1
        rcases mem_secEvents h1 with ⟨hcol, hx, hw, hsec⟩
        refine ⟨hcol, hx, hw, by rw [hsec]; exact List.mem_cons_self n rest, ?_⟩
        rw [hsec, halk]
        rfl
    · rcases ih h2 with ⟨hcol, hx, hw, hsec, hlk⟩
      exact ⟨hcol, hx, hw, List.mem_cons_of_mem n hsec, hlk⟩

theorem countTitle_append (n : String) (a b : List PdfEv) :
    countTitle n (a ++ b) = countTitle n a + countTitle n b := by
  simp [countTitle, List.countP_append]

theorem countTitle_secEvents (n n' : String) (c : Col) (ls : List String) :
    countTitle n (secEvents c n' ls) = if n' = n then 1 else 0 := by
  unfold countTitle secEvents
  rw [List.countP_cons]
  have h1 : List.countP (fun e => e.isTitle && e.sec == n)
      (ls.map (contentEv c n')) = 0 := by
    rw [List.countP_eq_zero]
    intro e hm
    rcases List.mem_map.mp hm with ⟨a, _, rfl⟩
    simp [contentEv]
  rw [h1]
  by_cases hn : n' = n
  · simp [titleEv, hn]
  · simp [titleEv, hn]

theorem occS_zero_of_not_mem (n : String) (l : List String) (h : n ∉ l) :
    occS n l = 0 := by
  induction l with
  | nil => rfl
  | cons a l ih =>
    have ha : ¬(a = n) := fun hh => h (List.mem_cons.mpr (Or.inl hh.symm))
    have hc : occS n (a :: l) = (if a = n then 1 else 0) + occS n l := by
      simp [occS]
    rw [hc, if_neg ha, ih (fun hh => h (List.mem_cons_of_mem a hh))]

theorem occS_le_one_of_nodup (n : String) (l : List String) (h : l.Nodup) :
    occS n l ≤ 1 := by
  induction l with
  | nil => simp [occS]
  | cons a l ih =>
    rcases List.nodup_cons.mp h with ⟨hna, hnd⟩
    have hc : occS n (a :: l) = (if a = n then 1 else 0) + occS n l := by
      simp [occS]
    by_cases ha : a = n
    · rw [hc, if_pos ha, occS_zero_of_not_mem n l (ha ▸ hna)]
    · rw [hc, if_neg ha]
      have := ih hnd
      omega

theorem countTitle_columnPass_le (n : String) (c : Col) (names : List String)
    (m : List (String × List String)) :
    countTitle n (columnPass c names m) ≤ occS n names := by
  induction names with
  | nil => simp [columnPass, countTitle, occS]
  | cons n' rest ih =>
    have hcp : columnPass c (n' :: rest) m =
        (match alookup n' m with
         | some ls => secEvents c n' ls
         | none => []) ++ columnPass c rest m := rfl
    have hs : occS n (n' :: rest) = (if n' = n then 1 else 0) + occS n rest := by
      simp [occS]
    rw [hcp, countTitle_append, hs]
    have hfirst : countTitle n
        (match alookup n' m with
         | some ls => secEvents c n' ls
         | none => []) ≤ if n' = n then 1 else 0 := by
      cases halk : alookup n' m with
      | none => exact Nat.zero_le _
      | some ls => rw [countTitle_secEvents]
    omega

/-- C6: for a parsed map whose keys are only EDUCATION and EXPERIENCE,
every left-column event of create_pdf belongs to EDUCATION and is
written at the left x position 10 with content width 65, every
right-column event belongs to EXPERIENCE at x position 85 with content
width 125, every event belongs to a name on one of the two fixed lists,
no section title is emitted twice for any name, and the fixed lists are
disjoint and duplicate-free. -/
theorem C6_column_assignment (m : List (String × List String))
    (hm : ∀ p ∈ m, p.1 = "EDUCATION" ∨ p.1 = "EXPERIENCE") :
    (∀ e ∈ createPdfEvents m,
      (e.col = Col.left → e.sec = "EDUCATION" ∧ e.x = 10 ∧
        (e.isTitle = false → e.w = 65)) ∧
      (e.col = Col.right → e.sec = "EXPERIENCE" ∧ e.x = 85 ∧
        (e.isTitle = false → e.w = 125)) ∧
      (e.sec ∈ left_sections ∨ e.sec ∈ right_sections)) ∧
    (∀ n, countTitle n (createPdfEvents m) ≤ 1) ∧
    List.Disjoint left_sections right_sections ∧
    left_sections.Nodup ∧ right_sections.Nodup := by
  refine ⟨?_, ?_, by intro a ha hb; fin_cases ha <;> exact absurd hb (by decide),
    by decide, by decide⟩
  · intro e he
    rcases List.mem_append.mp he with hL | hR
    · rcases mem_columnPass left_sections m hL with ⟨hcol, hx, hw, hsec, hlk⟩
      rcases alookup_isSome_mem m e.sec hlk with ⟨p, hp, hpk⟩
      have hed : e.sec = "EDUCATION" := by
        rcases hm p hp with h | h
        · exact hpk ▸ h
        · have hse : e.sec = "EXPERIENCE" := hpk ▸ h
          rw [hse] at hsec
          exact absurd hsec (by decide)
      refine ⟨fun _ => ⟨hed, by rw [hx]; rfl, fun ht => by rw [hw ht]; rfl⟩,
        fun hcr => ?_, Or.inl hsec⟩
      rw [hcol] at hcr
      exact absurd hcr (by decide)
    · rcases mem_columnPass right_sections m hR with ⟨hcol, hx, hw, hsec, hlk⟩
      rcases alookup_isSome_mem m e.sec hlk with ⟨p, hp, hpk⟩
      have hex : e.sec = "EXPERIENCE" := by
        rcases hm p hp with h | h
        · have hse : e.sec = "EDUCATION" := hpk ▸ h
          rw [hse] at hsec
          exact absurd hsec (by decide)
        · exact hpk ▸ h
      refine ⟨fun hcl => ?_,
        fun _ => ⟨hex, by rw [hx]; rfl, fun ht => by rw [hw ht]; rfl⟩,
        Or.inr hsec⟩
      rw [hcol] at hcl
      exact absurd hcl (by decide)
  · intro n
    have hc : createPdfEvents m =
        columnPass .left left_sections m ++ columnPass .right right_sections m :=
      rfl
    rw [hc, countTitle_append]
    have h1 := countTitle_columnPass_le n .left left_sections m
    have h2 := countTitle_columnPass_le n .right right_sections m
    have h3 : occS n (left_sections ++ right_sections) ≤ 1 :=
      occS_le_one_of_nodup n _ (by decide)
    have h4 : occS n (left_sections ++ right_sections) =
        occS n left_sections + occS n right_sections := occS_append n _ _
    omega

theorem C6_column_assignment_witness :
    countTitle "EDUCATION"
      (createPdfEvents [("EDUCATION", ["a"]), ("EXPERIENCE", ["b"])]) ≤ 1 :=
  (C6_column_assignment [("EDUCATION", ["a"]), ("EXPERIENCE", ["b"])]
    (by decide)).2.1 "EDUCATION"

/-! Cursor behaviour of the left pass. -/

theorem leftPass_preserves_yRight (h : String → Nat)
    (m : List (String × List String)) :
    ∀ (names : List String) (st : CursorState),
      (names.foldl
        (fun st n =>
          match alookup n m with
          | some ls => ⟨renderSectionLeftY h ls st.yLeft, st.yRight⟩
          | none => st)
        st).yRight = st.yRight := by
  intro names
  induction names with
  | nil => intro _; rfl
  | cons n rest ih =>
    intro st
    rw [List.foldl_cons, ih]
    cases alookup n m <;> rfl

/-- C7: after the left-column pass of create_pdf and before any
right-column section is rendered, the right cursor is reset to the
fixed constant margin + 25 = 35, independent of the parsed sections,
of the abstracted multi_cell heights, and of the incoming cursor
positions; moreover the left pass itself never moves the right
cursor. -/
theorem C7_right_cursor_reset (h : String → Nat)
    (m : List (String × List String)) (st : CursorState) :
    (runLeftPass h m st).yRight = st.yRight ∧
    (resetRightY (runLeftPass h m st)).yRight = margin + 25 ∧
    margin + 25 = 35 := by
  refine ⟨?_, rfl, rfl⟩
  exact leftPass_preserves_yRight h m left_sections st

/-- C9: the string not-an-address fails the is_valid_email format
check, the button handler answers it with the invalid-address warning,
and whenever the format check fails the handler never reaches the
transport attempt, so send_email_with_attachment is not invoked. -/
theorem C9_email_gate :
    is_valid_email "not-an-address" = false ∧
    email_button_handler "not-an-address" = EmailOutcome.warnInvalidEmail ∧
    (∀ r s, is_valid_email r = false →
      email_button_handler r ≠ EmailOutcome.sendAttempt s) := by
  refine ⟨by decide, by decide, ?_⟩
  intro r s hv
  unfold email_button_handler
  by_cases hb : pyStrip r = ""
  · simp [hb]
  · simp [hb, hv]

theorem C9_email_gate_witness :
    email_button_handler "not-an-address" ≠ EmailOutcome.sendAttempt "x" :=
  C9_email_gate.2.2 "not-an-address" "x" (by decide)

/-- C10: on an input text whose CONTACT INFORMATION section has a
second content line holding two pipe characters, create_pdf fails
during contact extraction with the unpack error, before any page
content (name block or column event) is produced, because the guard at
line 164 only distinguishes zero pipes from at least one pipe and the
two-variable unpacking of a three-part split raises ValueError; a
one-pipe contact line passes the same guard. -/
theorem C10_contact_unpack_error :
    create_pdf "CONTACT INFORMATION\nJohn Doe\nalice@mail.com|123-4567|extra" =
      Except.error "ValueError: unpack mismatch" ∧
    (splitOnChar '|' "alice@mail.com|123-4567|extra".toList).length = 3 ∧
    (match create_pdf "CONTACT INFORMATION\nJohn Doe\nalice@mail.com|555-1234" with
     | Except.ok _ => true
     | Except.error _ => false) = true := by
  refine ⟨rfl, by decide, rfl⟩
